import Mathlib

set_option maxRecDepth 20000

/-!
Verification of the fixed-size DNS value types of `src/types.rs` and the
record-data value model of the crate root.

Rust strings are modelled at the byte level as `List Nat`, each entry one
UTF-8 code unit: the codec limits of the types below are byte counts, and
every string operation the code performs (splitting and trimming at an
ASCII separator, ASCII case mapping of mnemonics, decimal parsing) acts on
UTF-8 strings exactly as it acts on their code-unit sequences.
-/

/-- Maximum length of a single DNS label (`MAX_LABEL_LEN` in types.rs). -/
def MAX_LABEL_LEN : Nat := 63

/-- Maximum wire length of a domain name (`MAX_DOMAIN_LEN` in types.rs). -/
def MAX_DOMAIN_LEN : Nat := 255

/-- Maximum TTL value per RFC 2181 §8 (`MAX_TTL` in types.rs). -/
def MAX_TTL : Nat := 2147483647

/-- The UTF-8 code unit of the separator character of dotted names. -/
def dotByte : Nat := 46

/-- Rust `Label`: a length field plus a fixed 63-byte backing array,
modelled as a list that the constructors keep at length 63. -/
structure Label where
  len : Nat
  data : List Nat
deriving DecidableEq, Repr

namespace Label

/-- Rust `Label::new`: reject empty or over-long inputs, otherwise copy the
bytes into a zero-initialised 63-byte array. -/
def new (bytes : List Nat) : Option Label :=
  if bytes.isEmpty ∨ bytes.length > MAX_LABEL_LEN then none
  else some { len := bytes.length
              data := bytes ++ List.replicate (MAX_LABEL_LEN - bytes.length) 0 }

/-- Rust `Label::from_str`, which just delegates to `new` on the bytes. -/
def from_str (s : List Nat) : Option Label :=
  new s

/-- Rust `Label::as_bytes`: the first `len` bytes of the backing array. -/
def as_bytes (l : Label) : List Nat :=
  l.data.take l.len

/-- Rust `Label::is_empty`. -/
def is_empty (l : Label) : Bool :=
  l.len == 0

/-- Rust `impl Default for Label`: length 0, all-zero array. -/
def defaultLabel : Label :=
  { len := 0, data := List.replicate MAX_LABEL_LEN 0 }

end Label

/-- Rust `DomainName`: a wire length plus a fixed 255-byte backing array,
modelled as a list that the constructors keep at length 255. -/
structure DomainName where
  len : Nat
  data : List Nat
deriving DecidableEq, Repr

/-- Rust `s.trim_end_matches('.')`: remove every trailing dot. -/
def trimEndDots (s : List Nat) : List Nat :=
  (s.reverse.dropWhile (fun b => b == dotByte)).reverse

namespace DomainName

/-- The loop body of `DomainName::from_dotted`: process the split components
in order, accumulating the wire bytes written so far (`acc`, whose length is
the Rust `pos` cursor into the zero-initialised array). -/
def fromDottedGo : List (List Nat) → List Nat → Option (List Nat)
  | [], acc => some acc
  | l :: ls, acc =>
    if l.isEmpty ∨ l.length > MAX_LABEL_LEN then none
    else if acc.length + 1 + l.length ≥ MAX_DOMAIN_LEN then none
    else fromDottedGo ls (acc ++ l.length :: l)

/-- Rust `DomainName::from_dotted`: empty input is the root domain; otherwise
trim trailing dots, split on `.`, encode each component as a length-prefixed
label, then append the zero terminator; the rest of the array stays zero. -/
def from_dotted (s : List Nat) : Option DomainName :=
  if s.isEmpty then
    some { len := 1, data := List.replicate MAX_DOMAIN_LEN 0 }
  else
    match fromDottedGo ((trimEndDots s).splitOn dotByte) [] with
    | none => none
    | some acc =>
      some { len := acc.length + 1
             data := acc ++ 0 :: List.replicate (MAX_DOMAIN_LEN - (acc.length + 1)) 0 }

/-- Rust `DomainName::wire_len`. -/
def wire_len (d : DomainName) : Nat :=
  d.len

/-- Rust `DomainName::as_wire_bytes`: the first `len` bytes of the array. -/
def as_wire_bytes (d : DomainName) : List Nat :=
  d.data.take d.len

/-- Rust `DomainName::is_root`: `len == 1 && data[0] == 0`.  The default of
`getD` is unreachable: the backing array always has 255 entries. -/
def is_root (d : DomainName) : Bool :=
  d.len == 1 && d.data.getD 0 1 == 0

/-- Rust `impl Default for DomainName`: the root domain. -/
def defaultDomainName : DomainName :=
  { len := 1, data := List.replicate MAX_DOMAIN_LEN 0 }

end DomainName

/-- A UTF-8 continuation byte, `0x80 ..= 0xBF`. -/
def isUtf8Cont (b : Nat) : Bool :=
  decide (128 ≤ b ∧ b ≤ 191)

/-- Whether a byte list is valid UTF-8, as decided by Rust's
`std::str::from_utf8` (well-formed sequences only: no overlong forms, no
surrogates, nothing above U+10FFFF). -/
def utf8Valid : List Nat → Bool
  | [] => true
  | b :: rest =>
    if b ≤ 127 then utf8Valid rest
    else if 194 ≤ b ∧ b ≤ 223 then
      match rest with
      | c1 :: rest2 => isUtf8Cont c1 && utf8Valid rest2
      | [] => false
    else if b = 224 then
      match rest with
      | c1 :: c2 :: rest2 =>
        decide (160 ≤ c1 ∧ c1 ≤ 191) && isUtf8Cont c2 && utf8Valid rest2
      | _ => false
    else if 225 ≤ b ∧ b ≤ 236 then
      match rest with
      | c1 :: c2 :: rest2 => isUtf8Cont c1 && isUtf8Cont c2 && utf8Valid rest2
      | _ => false
    else if b = 237 then
      match rest with
      | c1 :: c2 :: rest2 =>
        decide (128 ≤ c1 ∧ c1 ≤ 159) && isUtf8Cont c2 && utf8Valid rest2
      | _ => false
    else if 238 ≤ b ∧ b ≤ 239 then
      match rest with
      | c1 :: c2 :: rest2 => isUtf8Cont c1 && isUtf8Cont c2 && utf8Valid rest2
      | _ => false
    else if b = 240 then
      match rest with
      | c1 :: c2 :: c3 :: rest2 =>
        decide (144 ≤ c1 ∧ c1 ≤ 191) && isUtf8Cont c2 && isUtf8Cont c3 &&
          utf8Valid rest2
      | _ => false
    else if 241 ≤ b ∧ b ≤ 243 then
      match rest with
      | c1 :: c2 :: c3 :: rest2 =>
        isUtf8Cont c1 && isUtf8Cont c2 && isUtf8Cont c3 && utf8Valid rest2
      | _ => false
    else if b = 244 then
      match rest with
      | c1 :: c2 :: c3 :: rest2 =>
        decide (128 ≤ c1 ∧ c1 ≤ 143) && isUtf8Cont c2 && isUtf8Cont c3 &&
          utf8Valid rest2
      | _ => false
    else false

namespace DomainName

/-- The loop body of `DomainName::to_dotted`: read a length byte, stop at the
zero terminator, otherwise join the label bytes (when valid UTF-8, as in the
Rust `from_utf8` check) onto the result, separated by dots. -/
def toDottedGo : List Nat → List Nat → List Nat
  | [], result => result
  | n :: rest, result =>
    if n == 0 then result
    else
      let result1 := if result.isEmpty then result else result ++ [dotByte]
      let result2 :=
        if utf8Valid (rest.take n) then result1 ++ rest.take n else result1
      toDottedGo (rest.drop n) result2
termination_by l _ => l.length
decreasing_by
  simp only [List.length_drop, List.length_cons]
  omega

/-- Rust `DomainName::to_dotted`: walk the first `len` wire bytes. -/
def to_dotted (d : DomainName) : List Nat :=
  toDottedGo (d.data.take d.len) []

end DomainName

/-- Rust `Ttl`: a wrapped `u32` seconds value. -/
structure Ttl where
  secs : Nat
deriving DecidableEq, Repr

namespace Ttl

/-- Rust `Ttl::new`: clamp to `MAX_TTL`. -/
def new (seconds : Nat) : Ttl :=
  if seconds > MAX_TTL then { secs := MAX_TTL } else { secs := seconds }

/-- Rust `Ttl::try_new`: reject values above `MAX_TTL`. -/
def try_new (seconds : Nat) : Option Ttl :=
  if seconds > MAX_TTL then none else some { secs := seconds }

/-- Rust `Ttl::as_secs`. -/
def as_secs (t : Ttl) : Nat :=
  t.secs

/-- Rust `Ttl::is_zero`. -/
def is_zero (t : Ttl) : Bool :=
  t.secs == 0

end Ttl

/-- ASCII upper-casing of one byte (`a`..`z` to `A`..`Z`).  Rust's
`str::to_uppercase` agrees with mapping this over the bytes on every ASCII
string, and all inputs considered here are ASCII. -/
def asciiUpperByte (b : Nat) : Nat :=
  if 97 ≤ b ∧ b ≤ 122 then b - 32 else b

/-- ASCII upper-casing of a byte string. -/
def asciiUpper (s : List Nat) : List Nat :=
  s.map asciiUpperByte

/-- ASCII lower-casing of one byte (`A`..`Z` to `a`..`z`). -/
def asciiLowerByte (b : Nat) : Nat :=
  if 65 ≤ b ∧ b ≤ 90 then b + 32 else b

/-- ASCII lower-casing of a byte string. -/
def asciiLower (s : List Nat) : List Nat :=
  s.map asciiLowerByte

/-- Rust `RecordType` (types.rs): the closed set of supported record types. -/
inductive RecordType where
  | A | NS | CNAME | SOA | PTR | HINFO | MX | TXT | AAAA | SRV | DS | DNSKEY
  | CAA
deriving DecidableEq, Repr

namespace RecordType

/-- Rust `RecordType::from_u16`. -/
def from_u16 (value : Nat) : Option RecordType :=
  match value with
  | 1 => some .A
  | 2 => some .NS
  | 5 => some .CNAME
  | 6 => some .SOA
  | 12 => some .PTR
  | 13 => some .HINFO
  | 15 => some .MX
  | 16 => some .TXT
  | 28 => some .AAAA
  | 33 => some .SRV
  | 43 => some .DS
  | 48 => some .DNSKEY
  | 257 => some .CAA
  | _ => none

/-- Rust `RecordType::as_u16`: the discriminant value of the enum. -/
def as_u16 : RecordType → Nat
  | .A => 1
  | .NS => 2
  | .CNAME => 5
  | .SOA => 6
  | .PTR => 12
  | .HINFO => 13
  | .MX => 15
  | .TXT => 16
  | .AAAA => 28
  | .SRV => 33
  | .DS => 43
  | .DNSKEY => 48
  | .CAA => 257

/-- Rust `RecordType::as_str`, as ASCII bytes ("A", "NS", "CNAME", ...). -/
def as_str : RecordType → List Nat
  | .A => [65]
  | .NS => [78, 83]
  | .CNAME => [67, 78, 65, 77, 69]
  | .SOA => [83, 79, 65]
  | .PTR => [80, 84, 82]
  | .HINFO => [72, 73, 78, 70, 79]
  | .MX => [77, 88]
  | .TXT => [84, 88, 84]
  | .AAAA => [65, 65, 65, 65]
  | .SRV => [83, 82, 86]
  | .DS => [68, 83]
  | .DNSKEY => [68, 78, 83, 75, 69, 89]
  | .CAA => [67, 65, 65]

/-- Rust `RecordType::from_str`: upper-case the input, then match it against
the canonical mnemonics. -/
def from_str (s : List Nat) : Option RecordType :=
  match asciiUpper s with
  | [65] => some .A
  | [78, 83] => some .NS
  | [67, 78, 65, 77, 69] => some .CNAME
  | [83, 79, 65] => some .SOA
  | [80, 84, 82] => some .PTR
  | [72, 73, 78, 70, 79] => some .HINFO
  | [77, 88] => some .MX
  | [84, 88, 84] => some .TXT
  | [65, 65, 65, 65] => some .AAAA
  | [83, 82, 86] => some .SRV
  | [68, 83] => some .DS
  | [68, 78, 83, 75, 69, 89] => some .DNSKEY
  | [67, 65, 65] => some .CAA
  | _ => none

end RecordType

/-- Rust `RecordClass` (types.rs). -/
inductive RecordClass where
  | IN | CS | CH | HS
deriving DecidableEq, Repr

namespace RecordClass

/-- Rust `RecordClass::from_u16`. -/
def from_u16 (value : Nat) : Option RecordClass :=
  match value with
  | 1 => some .IN
  | 2 => some .CS
  | 3 => some .CH
  | 4 => some .HS
  | _ => none

/-- Rust `RecordClass::as_u16`: the discriminant value of the enum. -/
def as_u16 : RecordClass → Nat
  | .IN => 1
  | .CS => 2
  | .CH => 3
  | .HS => 4

end RecordClass

/-- Parse an unsigned decimal number, `u16`-bounded: digits only, value at
most 65535 (Rust `str::parse::<u16>` on a plain digit string). -/
def parseU16 (s : List Nat) : Option Nat :=
  if s ≠ [] ∧ ∀ b ∈ s, 48 ≤ b ∧ b ≤ 57 then
    let n := s.foldl (fun acc b => acc * 10 + (b - 48)) 0
    if n ≤ 65535 then some n else none
  else none

/-- Decimal digit list of `n`, most significant first; fuel-driven so it
reduces in the kernel, with fuel `n + 1` always sufficient. -/
def natDigitsGo : Nat → Nat → List Nat → List Nat
  | 0, _, acc => acc
  | fuel + 1, n, acc =>
    if n < 10 then n :: acc else natDigitsGo fuel (n / 10) (n % 10 :: acc)

/-- Decimal ASCII rendering of a natural number. -/
def natToDecimalBytes (n : Nat) : List Nat :=
  (natDigitsGo (n + 1) n []).map (fun d => d + 48)

/-- Modelled from the spec: the crate root's `RecordData` tagged value type
is not under `src/`; only its tests and the vendor adapters are.  Following
§3 and §4.5 of the spec, only the `MX` variant and the `Other` fallback —
the two arms the claims exercise — are modelled; the remaining variants
(A, AAAA, CNAME, NS, TXT, SRV) are not needed by any claim. -/
inductive RecordData where
  | MX (priority : Nat) (mail_server : List Nat)
  | Other (typ : List Nat) (value : List Nat)
deriving DecidableEq, Repr

namespace RecordData

/-- Modelled from the spec, §4.5: `from_raw("MX", v)` splits `v` into
whitespace-delimited parts (here: space-delimited, the only whitespace in
scope); exactly two parts whose first parses as `u16` yield `MX`, anything
else falls back to `Other`, as does every type without a modelled shape. -/
def from_raw (typ value : List Nat) : RecordData :=
  if typ = [77, 88] then
    match (value.splitOn 32).filter (fun p => ¬ p.isEmpty) with
    | [p, server] =>
      match parseU16 p with
      | some pr => .MX pr server
      | none => .Other typ value
    | _ => .Other typ value
  else .Other typ value

/-- Modelled from the spec, §4.5: `get_value` renders the human-oriented
form; for MX that is `"<priority> <mail_server>"`. -/
def get_value : RecordData → List Nat
  | .MX priority mail_server =>
    natToDecimalBytes priority ++ 32 :: mail_server
  | .Other _ value => value

/-- Modelled from the spec, §4.5: `get_api_value` renders the narrower
creation-endpoint form; for MX the mail server only, priority excluded. -/
def get_api_value : RecordData → List Nat
  | .MX _ mail_server => mail_server
  | .Other _ value => value

/-- Modelled from the spec, §4.5: `get_type` returns the canonical type
mnemonic of the active variant. -/
def get_type : RecordData → List Nat
  | .MX _ _ => [77, 88]
  | .Other typ _ => typ

end RecordData

/-- The wire encoding of a list of label byte strings: each label prefixed
by its length byte, in order (no terminator). -/
def encodeLabels (comps : List (List Nat)) : List Nat :=
  (comps.map (fun c => c.length :: c)).flatten

/-- The canonical stored form of a `Label` produced by the constructors:
the payload followed by a zero-padded tail. -/
def canonLabel (b : List Nat) : Label :=
  { len := b.length, data := b ++ List.replicate (MAX_LABEL_LEN - b.length) 0 }

/-- The canonical stored form of a `DomainName` produced by `from_dotted`
and `default`: the encoded labels, the zero terminator, a zero-padded tail. -/
def canonDomainName (out : List Nat) : DomainName :=
  { len := out.length + 1
    data := out ++ 0 :: List.replicate (MAX_DOMAIN_LEN - (out.length + 1)) 0 }

/-! ### Helper lemmas -/

lemma trimEndDots_eq_rdropWhile (s : List Nat) :
    trimEndDots s = s.rdropWhile (fun b => b == dotByte) := rfl

lemma trimEndDots_idem (s : List Nat) :
    trimEndDots (trimEndDots s) = trimEndDots s := by
  simp only [trimEndDots_eq_rdropWhile]
  exact List.rdropWhile_idempotent _ _

lemma intercalate_singleton (x : Nat) (c : List Nat) :
    List.intercalate [x] [c] = c := by
  simp [List.intercalate]

lemma intercalate_cons_cons (x : Nat) (c d : List Nat) (ds : List (List Nat)) :
    List.intercalate [x] (c :: d :: ds) = c ++ x :: List.intercalate [x] (d :: ds) := by
  simp [List.intercalate, List.intersperse]

lemma intercalate_dot_ne_nil (x : Nat) (c : List Nat) (cs : List (List Nat))
    (hc : c ≠ []) : List.intercalate [x] (c :: cs) ≠ [] := by
  cases cs with
  | nil => simpa [intercalate_singleton] using hc
  | cons d ds =>
    rw [intercalate_cons_cons]
    simp [hc]

lemma getLast?_intercalate_dot (comps : List (List Nat))
    (hall : ∀ c ∈ comps, c ≠ [] ∧ dotByte ∉ c) :
    ∀ b ∈ (List.intercalate [dotByte] comps).getLast?, b ≠ dotByte := by
  induction comps with
  | nil => simp [List.intercalate]
  | cons c cs ih =>
    cases cs with
    | nil =>
      intro b hb
      rw [intercalate_singleton] at hb
      obtain ⟨h, rfl⟩ := List.mem_getLast?_eq_getLast hb
      have := (hall c (by simp)).2
      exact fun hdot => this (hdot ▸ List.getLast_mem h)
    | cons d ds =>
      intro b hb
      rw [intercalate_cons_cons] at hb
      have hne : List.intercalate [dotByte] (d :: ds) ≠ [] :=
        intercalate_dot_ne_nil _ _ _ (hall d (by simp)).1
      rw [List.getLast?_append_of_ne_nil _ (by simp),
        show dotByte :: List.intercalate [dotByte] (d :: ds) =
          [dotByte] ++ List.intercalate [dotByte] (d :: ds) from rfl,
        List.getLast?_append_of_ne_nil _ hne] at hb
      exact ih (fun c hc => hall c (by simp [hc])) b hb

lemma trimEndDots_intercalate (comps : List (List Nat))
    (hall : ∀ c ∈ comps, c ≠ [] ∧ dotByte ∉ c) :
    trimEndDots (List.intercalate [dotByte] comps) =
      List.intercalate [dotByte] comps := by
  rw [trimEndDots_eq_rdropWhile, List.rdropWhile_eq_self_iff]
  intro hl
  have hmem : (List.intercalate [dotByte] comps).getLast hl ∈
      (List.intercalate [dotByte] comps).getLast? := by
    rw [List.getLast?_eq_getLast _ hl]
    rfl
  have := getLast?_intercalate_dot comps hall _ hmem
  simpa using this

lemma encodeLabels_nil : encodeLabels [] = [] := rfl

lemma encodeLabels_cons (c : List Nat) (cs : List (List Nat)) :
    encodeLabels (c :: cs) = c.length :: (c ++ encodeLabels cs) := by
  simp [encodeLabels]

lemma encodeLabels_length (comps : List (List Nat)) :
    (encodeLabels comps).length = (comps.map (fun c => 1 + c.length)).sum := by
  induction comps with
  | nil => rfl
  | cons c cs ih =>
    simp only [encodeLabels_cons, List.length_cons, List.length_append,
      List.map_cons, List.sum_cons, ih]
    omega

lemma fromDottedGo_eq_some (comps : List (List Nat)) (acc : List Nat)
    (hv : ∀ c ∈ comps, c ≠ [] ∧ c.length ≤ MAX_LABEL_LEN)
    (hlen : acc.length + (encodeLabels comps).length + 1 ≤ MAX_DOMAIN_LEN) :
    DomainName.fromDottedGo comps acc = some (acc ++ encodeLabels comps) := by
  induction comps generalizing acc with
  | nil => simp [DomainName.fromDottedGo, encodeLabels_nil]
  | cons c cs ih =>
    have hc := hv c (by simp)
    have henc : (encodeLabels (c :: cs)).length =
        1 + c.length + (encodeLabels cs).length := by
      simp [encodeLabels_cons]; omega
    simp only [DomainName.fromDottedGo]
    rw [if_neg, if_neg]
    · rw [ih (acc ++ c.length :: c)
        (fun x hx => hv x (by simp [hx]))
        (by simp only [List.length_append, List.length_cons]; omega)]
      rw [encodeLabels_cons]
      simp
    · simp only [List.length_append, List.length_cons, MAX_DOMAIN_LEN] at *
      omega
    · intro hcase
      rcases hcase with he | hl
      · exact hc.1 (List.isEmpty_iff.mp he)
      · exact absurd hc.2 (not_le.mpr hl)

lemma fromDottedGo_none (comps : List (List Nat)) (acc : List Nat)
    (hv : ∀ c ∈ comps, c ≠ [] ∧ c.length ≤ MAX_LABEL_LEN)
    (hacc : acc.length + 1 ≤ MAX_DOMAIN_LEN)
    (hlen : MAX_DOMAIN_LEN < acc.length + (encodeLabels comps).length + 1) :
    DomainName.fromDottedGo comps acc = none := by
  induction comps generalizing acc with
  | nil =>
    simp only [encodeLabels_nil, List.length_nil] at hlen
    omega
  | cons c cs ih =>
    have hc := hv c (by simp)
    have henc : (encodeLabels (c :: cs)).length =
        1 + c.length + (encodeLabels cs).length := by
      simp [encodeLabels_cons]; omega
    simp only [DomainName.fromDottedGo]
    rw [if_neg]
    · by_cases h2 : acc.length + 1 + c.length ≥ MAX_DOMAIN_LEN
      · rw [if_pos h2]
      · rw [if_neg h2]
        refine ih (acc ++ c.length :: c) (fun x hx => hv x (by simp [hx])) ?_ ?_
        · simp only [List.length_append, List.length_cons, MAX_DOMAIN_LEN] at *
          omega
        · simp only [List.length_append, List.length_cons, MAX_DOMAIN_LEN] at *
          omega
    · intro hcase
      rcases hcase with he | hl
      · exact hc.1 (List.isEmpty_iff.mp he)
      · exact absurd hc.2 (not_le.mpr hl)

lemma fromDottedGo_some_inv (comps : List (List Nat)) (acc out : List Nat)
    (h : DomainName.fromDottedGo comps acc = some out) :
    acc.length ≤ out.length ∧
    (acc.length + 1 ≤ MAX_DOMAIN_LEN → out.length + 1 ≤ MAX_DOMAIN_LEN) ∧
    (comps ≠ [] → acc.length + 2 ≤ out.length) := by
  induction comps generalizing acc with
  | nil =>
    simp only [DomainName.fromDottedGo, Option.some.injEq] at h
    subst h
    exact ⟨le_refl _, fun h => h, fun hne => absurd rfl hne⟩
  | cons c cs ih =>
    simp only [DomainName.fromDottedGo] at h
    split at h
    · exact absurd h (by simp)
    · split at h
      · exact absurd h (by simp)
      · rename_i hcond hge
        have hcne : c ≠ [] := fun he => hcond (Or.inl (by simp [he]))
        have hcpos : 1 ≤ c.length := List.length_pos.mpr hcne
        obtain ⟨ha, hb, _⟩ := ih (acc ++ c.length :: c) h
        simp only [List.length_append, List.length_cons] at ha hb
        refine ⟨by omega, fun hbound => hb (by
          simp only [MAX_DOMAIN_LEN] at *; omega), fun _ => by omega⟩

lemma splitOn_ne_nil (x : Nat) (l : List Nat) : l.splitOn x ≠ [] := by
  simp only [List.splitOn]
  exact List.splitOnP_ne_nil _ l

lemma defaultDomainName_eq_canon :
    DomainName.defaultDomainName = canonDomainName [] := by decide

lemma canon_wire_len (out : List Nat) :
    (canonDomainName out).wire_len = out.length + 1 := rfl

lemma canon_as_wire_bytes (out : List Nat) :
    (canonDomainName out).as_wire_bytes = out ++ [0] := by
  show ((out ++ 0 :: List.replicate (MAX_DOMAIN_LEN - (out.length + 1)) 0).take
    (out.length + 1)) = out ++ [0]
  rw [show out ++ 0 :: List.replicate (MAX_DOMAIN_LEN - (out.length + 1)) 0 =
    (out ++ [0]) ++ List.replicate (MAX_DOMAIN_LEN - (out.length + 1)) 0 by simp]
  exact List.take_left' (by simp)

lemma from_dotted_canon (s : List Nat) (d : DomainName)
    (h : DomainName.from_dotted s = some d) :
    ∃ out, d = canonDomainName out ∧ out.length + 1 ≤ MAX_DOMAIN_LEN ∧
      (out = [] ∨ 2 ≤ out.length) := by
  unfold DomainName.from_dotted at h
  split at h
  · refine ⟨[], ?_, by simp [MAX_DOMAIN_LEN], Or.inl rfl⟩
    cases h
    exact defaultDomainName_eq_canon
  · split at h
    · exact absurd h (by simp)
    · rename_i acc heq
      cases h
      obtain ⟨_, hb, hc⟩ := fromDottedGo_some_inv _ [] acc heq
      refine ⟨acc, rfl, hb (by simp [MAX_DOMAIN_LEN]), Or.inr ?_⟩
      simpa using hc (splitOn_ne_nil _ _)

/-! ### Claim theorems -/

/-- C2: every `DomainName` obtained from a successful `from_dotted` call or
from `default()` has wire length in `[1, 255]`, its wire bytes end in the
zero terminator, and `is_root()` holds exactly when the wire length is 1. -/
theorem claim2_domain_wire_invariants :
    ∀ d : DomainName,
      ((∃ s, DomainName.from_dotted s = some d) ∨
        d = DomainName.defaultDomainName) →
      (1 ≤ d.wire_len ∧ d.wire_len ≤ MAX_DOMAIN_LEN) ∧
      d.as_wire_bytes.getLast? = some 0 ∧
      (d.is_root = true ↔ d.wire_len = 1) := by
  intro d h
  obtain ⟨out, rfl, hle, hor⟩ :
      ∃ out, d = canonDomainName out ∧ out.length + 1 ≤ MAX_DOMAIN_LEN ∧
        (out = [] ∨ 2 ≤ out.length) := by
    rcases h with ⟨s, hs⟩ | rfl
    · exact from_dotted_canon s d hs
    · exact ⟨[], defaultDomainName_eq_canon, by simp [MAX_DOMAIN_LEN],
        Or.inl rfl⟩
  refine ⟨⟨by simp [canon_wire_len], by rw [canon_wire_len]; exact hle⟩, ?_, ?_⟩
  · rw [canon_as_wire_bytes]
    exact List.getLast?_concat _
  · rcases hor with rfl | h2
    · decide
    · simp only [DomainName.is_root, DomainName.wire_len, canonDomainName,
        Bool.and_eq_true, beq_iff_eq]
      constructor
      · exact fun hh => hh.1
      · intro hh
        exact absurd hh (by omega)

/-- Witness for C2 at the concrete input "a" (bytes `[97]`). -/
theorem claim2_domain_wire_invariants_witness :
    (1 ≤ (canonDomainName [1, 97]).wire_len ∧
      (canonDomainName [1, 97]).wire_len ≤ MAX_DOMAIN_LEN) ∧
    (canonDomainName [1, 97]).as_wire_bytes.getLast? = some 0 ∧
    ((canonDomainName [1, 97]).is_root = true ↔
      (canonDomainName [1, 97]).wire_len = 1) :=
  claim2_domain_wire_invariants (canonDomainName [1, 97])
    (Or.inl ⟨[97], by decide⟩)

/-- C3: a dotted string whose components are all valid labels but whose
total wire length exceeds 255 bytes is rejected by `from_dotted`. -/
theorem claim3_overlong_name_rejected :
    ∀ comps : List (List Nat), comps ≠ [] →
      (∀ c ∈ comps, c ≠ [] ∧ c.length ≤ MAX_LABEL_LEN ∧ dotByte ∉ c) →
      MAX_DOMAIN_LEN < (comps.map (fun c => 1 + c.length)).sum + 1 →
      DomainName.from_dotted (List.intercalate [dotByte] comps) = none := by
  intro comps hne hall hbig
  obtain ⟨c, cs, rfl⟩ := List.exists_cons_of_ne_nil hne
  have hs_ne : List.intercalate [dotByte] (c :: cs) ≠ [] :=
    intercalate_dot_ne_nil _ _ _ (hall c (by simp)).1
  unfold DomainName.from_dotted
  rw [if_neg (by simpa [List.isEmpty_iff] using hs_ne)]
  rw [trimEndDots_intercalate _ (fun x hx => ⟨(hall x hx).1, (hall x hx).2.2⟩)]
  rw [List.splitOn_intercalate _ dotByte (fun l hl => (hall l hl).2.2) hne]
  rw [fromDottedGo_none _ _ (fun x hx => ⟨(hall x hx).1, (hall x hx).2.1⟩)
    (by simp [MAX_DOMAIN_LEN])
    (by rw [encodeLabels_length]; simpa using hbig)]

/-- Witness for C3: four 63-byte labels (total wire length 257) rejected. -/
theorem claim3_overlong_name_rejected_witness :
    DomainName.from_dotted
      (List.intercalate [dotByte]
        (List.replicate 4 (List.replicate 63 97))) = none :=
  claim3_overlong_name_rejected (List.replicate 4 (List.replicate 63 97))
    (by decide) (by decide) (by decide)

/-- C4 counterexample: the claim says every input ending in two or more
consecutive dots fails construction; but `from_dotted` on the bytes of
"example.com.." succeeds, because `trim_end_matches('.')` strips every
trailing dot, not just one. -/
theorem claim4_counterexample :
    (DomainName.from_dotted
      [101, 120, 97, 109, 112, 108, 101, 46, 99, 111, 109, 46, 46]).isSome =
      true := by decide

/-- C4 amended: `from_dotted` strips all trailing dots before splitting, so
a non-empty input behaves exactly like the input with every trailing dot
removed; an input consisting solely of dots fails, because the remainder is
empty and splitting it yields one empty component. -/
theorem claim4_amended_trailing_dots :
    ∀ s : List Nat, s ≠ [] →
      (trimEndDots s ≠ [] →
        DomainName.from_dotted s = DomainName.from_dotted (trimEndDots s)) ∧
      (trimEndDots s = [] → DomainName.from_dotted s = none) := by
  intro s hs
  constructor
  · intro ht
    unfold DomainName.from_dotted
    rw [if_neg (by simpa [List.isEmpty_iff] using hs),
      if_neg (by simpa [List.isEmpty_iff] using ht), trimEndDots_idem]
  · intro ht
    unfold DomainName.from_dotted
    rw [if_neg (by simpa [List.isEmpty_iff] using hs), ht]
    rw [List.splitOn_nil]
    simp [DomainName.fromDottedGo]

/-- Witness for C4's amended claim, at the bytes of "example.com..". -/
theorem claim4_amended_trailing_dots_witness :
    DomainName.from_dotted
        [101, 120, 97, 109, 112, 108, 101, 46, 99, 111, 109, 46, 46] =
      DomainName.from_dotted
        (trimEndDots
          [101, 120, 97, 109, 112, 108, 101, 46, 99, 111, 109, 46, 46]) :=
  (claim4_amended_trailing_dots _ (by decide)).1 (by decide)

/-- C5: `Label::new` fails exactly on empty or over-63-byte inputs, and on
success `as_bytes` returns the input bytes unchanged. -/
theorem claim5_label_new_contract :
    ∀ b : List Nat,
      (Label.new b = none ↔ b = [] ∨ MAX_LABEL_LEN < b.length) ∧
      (∀ l, Label.new b = some l → l.as_bytes = b) := by
  intro b
  constructor
  · unfold Label.new
    split
    · rename_i h
      rcases h with he | hl
      · simp only [List.isEmpty_iff] at he
        simp [he]
      · simp [Or.inr hl]
    · rename_i h
      push_neg at h
      obtain ⟨he, hl⟩ := h
      have hbne : b ≠ [] := fun hb => he (by simp [hb])
      constructor
      · intro hc
        exact absurd hc (by simp)
      · intro hc
        rcases hc with rfl | hgt
        · exact absurd rfl hbne
        · exact absurd hgt (not_lt.mpr hl)
  · intro l hl
    unfold Label.new at hl
    split at hl
    · exact absurd hl (by simp)
    · cases hl
      exact List.take_left' rfl

/-- Witness for C5, at the one-byte input "a" (`[97]`). -/
theorem claim5_label_new_contract_witness :
    (Label.new [97] = none ↔ [97] = ([] : List Nat) ∨
      MAX_LABEL_LEN < ([97] : List Nat).length) ∧
    Label.as_bytes { len := 1, data := 97 :: List.replicate 62 0 } = [97] :=
  ⟨(claim5_label_new_contract [97]).1,
    (claim5_label_new_contract [97]).2 _ (by decide)⟩

/-- C6 counterexample: the claim includes `Label::default()` among the
publicly obtainable values with length in `[1, 63]`, but the default label
has length 0 and `is_empty()` returns true on it. -/
theorem claim6_counterexample :
    Label.is_empty Label.defaultLabel = true ∧ Label.defaultLabel.len = 0 := by
  decide

/-- C6 amended: every `Label` obtained from `Label::new` or
`Label::from_str` has length in `[1, 63]` and `is_empty()` false;
`Label::default()`, by contrast, has length 0. -/
theorem claim6_amended_label_invariant :
    ∀ (b : List Nat) (l : Label),
      (Label.new b = some l ∨ Label.from_str b = some l) →
      1 ≤ l.len ∧ l.len ≤ MAX_LABEL_LEN ∧ l.is_empty = false := by
  intro b l h
  have hn : Label.new b = some l := by
    rcases h with h | h
    · exact h
    · exact h
  unfold Label.new at hn
  split at hn
  · exact absurd hn (by simp)
  · rename_i hcond
    push_neg at hcond
    obtain ⟨he, hl⟩ := hcond
    have hpos : 1 ≤ b.length := by
      rcases Nat.eq_zero_or_pos b.length with hz | hp
      · exact absurd (by simp [List.length_eq_zero.mp hz]) he
      · exact hp
    cases hn
    refine ⟨hpos, hl, ?_⟩
    simp only [Label.is_empty, beq_eq_false_iff_ne, ne_eq]
    omega

/-- Witness for C6's amended claim, at the one-byte input "a" (`[97]`). -/
theorem claim6_amended_label_invariant_witness :
    1 ≤ ({ len := 1, data := 97 :: List.replicate 62 0 } : Label).len ∧
    ({ len := 1, data := 97 :: List.replicate 62 0 } : Label).len ≤
      MAX_LABEL_LEN ∧
    ({ len := 1, data := 97 :: List.replicate 62 0 } : Label).is_empty =
      false :=
  claim6_amended_label_invariant [97] _ (Or.inl (by decide))

/-- C7: the clamping constructor returns `min v MAX_TTL` for every `u32`
input and never fails; the strict constructor returns the value unchanged
when it is at most `MAX_TTL` and fails otherwise. -/
theorem claim7_ttl_constructors :
    ∀ v : Nat, v < 4294967296 →
      (Ttl.new v).as_secs = min v MAX_TTL ∧
      (v ≤ MAX_TTL → Ttl.try_new v = some { secs := v }) ∧
      (MAX_TTL < v → Ttl.try_new v = none) := by
  intro v _
  refine ⟨?_, ?_, ?_⟩
  · simp only [Ttl.new, Ttl.as_secs]
    split
    · rename_i h
      show MAX_TTL = min v MAX_TTL
      omega
    · rename_i h
      show v = min v MAX_TTL
      omega
  · intro h
    simp only [Ttl.try_new]
    rw [if_neg (by omega)]
  · intro h
    simp only [Ttl.try_new]
    rw [if_pos h]

/-- Witness for C7 at `v = 3000000000`, which exceeds `MAX_TTL`. -/
theorem claim7_ttl_constructors_witness :
    (Ttl.new 3000000000).as_secs = min 3000000000 MAX_TTL ∧
    (3000000000 ≤ MAX_TTL → Ttl.try_new 3000000000 = some { secs := 3000000000 }) ∧
    (MAX_TTL < 3000000000 → Ttl.try_new 3000000000 = none) :=
  claim7_ttl_constructors 3000000000 (by omega)

/-- C8: every `RecordType` member round-trips through its numeric code and
through its mnemonic (also lower-cased, since `from_str` matches
case-insensitively), and every `RecordClass` member round-trips through its
numeric code. -/
theorem claim8_enum_roundtrips :
    (∀ t : RecordType,
      RecordType.from_u16 t.as_u16 = some t ∧
      RecordType.from_str t.as_str = some t ∧
      RecordType.from_str (asciiLower t.as_str) = some t) ∧
    (∀ c : RecordClass, RecordClass.from_u16 c.as_u16 = some c) := by
  constructor
  · intro t
    cases t <;> decide
  · intro c
    cases c <;> decide

/-- C9: `RecordData::from_raw("MX", "10 mail.example.com")` parses into the
MX shape; `get_value` renders `"10 mail.example.com"` (priority and mail
server, space-separated) while `get_api_value` renders only
`"mail.example.com"`.  All strings appear as their ASCII bytes. -/
theorem claim9_mx_value_rendering :
    RecordData.from_raw [77, 88]
        [49, 48, 32, 109, 97, 105, 108, 46, 101, 120, 97, 109, 112, 108, 101,
          46, 99, 111, 109] =
      RecordData.MX 10
        [109, 97, 105, 108, 46, 101, 120, 97, 109, 112, 108, 101, 46, 99,
          111, 109] ∧
    (RecordData.MX 10
        [109, 97, 105, 108, 46, 101, 120, 97, 109, 112, 108, 101, 46, 99,
          111, 109]).get_value =
      [49, 48, 32, 109, 97, 105, 108, 46, 101, 120, 97, 109, 112, 108, 101,
        46, 99, 111, 109] ∧
    (RecordData.MX 10
        [109, 97, 105, 108, 46, 101, 120, 97, 109, 112, 108, 101, 46, 99,
          111, 109]).get_api_value =
      [109, 97, 105, 108, 46, 101, 120, 97, 109, 112, 108, 101, 46, 99, 111,
        109] := by
  refine ⟨by decide, by decide, by decide⟩

lemma toDottedGo_zero (rest res : List Nat) :
    DomainName.toDottedGo (0 :: rest) res = res := by
  rw [DomainName.toDottedGo]
  simp

lemma intercalate_dot_eq (c : List Nat) (cs : List (List Nat)) :
    List.intercalate [dotByte] (c :: cs) =
      c ++ (cs.map (fun x => dotByte :: x)).flatten := by
  induction cs generalizing c with
  | nil => simp [intercalate_singleton]
  | cons d ds ih =>
    rw [intercalate_cons_cons, ih d]
    simp

lemma toDottedGo_step (c rest res : List Nat) (hc : c ≠ [])
    (hu : utf8Valid c = true) (hres : res ≠ []) :
    DomainName.toDottedGo ((c.length :: (c ++ rest))) res =
      DomainName.toDottedGo rest ((res ++ [dotByte]) ++ c) := by
  rw [DomainName.toDottedGo]
  rw [if_neg (by simpa using hc)]
  simp only [List.take_left, List.drop_left]
  rw [if_pos hu, if_neg (by simpa [List.isEmpty_iff] using hres)]

lemma toDottedGo_step_nil (c rest : List Nat) (hc : c ≠ [])
    (hu : utf8Valid c = true) :
    DomainName.toDottedGo ((c.length :: (c ++ rest))) [] =
      DomainName.toDottedGo rest c := by
  rw [DomainName.toDottedGo]
  rw [if_neg (by simpa using hc)]
  simp only [List.take_left, List.drop_left]
  rw [if_pos hu,
    if_pos (show (([] : List Nat).isEmpty = true) from rfl)]
  rw [List.nil_append]

lemma toDottedGo_encode (comps : List (List Nat))
    (hall : ∀ x ∈ comps, x ≠ [] ∧ utf8Valid x = true) :
    ∀ res, res ≠ [] →
      DomainName.toDottedGo (encodeLabels comps ++ [0]) res =
        res ++ (comps.map (fun x => dotByte :: x)).flatten := by
  induction comps with
  | nil =>
    intro res hres
    rw [encodeLabels_nil, List.nil_append, toDottedGo_zero]
    simp
  | cons c cs ih =>
    intro res hres
    have hc := hall c (by simp)
    rw [encodeLabels_cons,
      show (c.length :: (c ++ encodeLabels cs)) ++ [0] =
        c.length :: (c ++ (encodeLabels cs ++ [0])) by simp,
      toDottedGo_step c _ res hc.1 hc.2 hres,
      ih (fun x hx => hall x (by simp [hx])) _ (by simp)]
    simp

lemma toDottedGo_encode_head (c : List Nat) (cs : List (List Nat))
    (hall : ∀ x ∈ c :: cs, x ≠ [] ∧ utf8Valid x = true) :
    DomainName.toDottedGo (encodeLabels (c :: cs) ++ [0]) [] =
      List.intercalate [dotByte] (c :: cs) := by
  have hc := hall c (by simp)
  rw [encodeLabels_cons,
    show (c.length :: (c ++ encodeLabels cs)) ++ [0] =
      c.length :: (c ++ (encodeLabels cs ++ [0])) by simp,
    toDottedGo_step_nil c _ hc.1 hc.2, intercalate_dot_eq]
  cases cs with
  | nil =>
    rw [encodeLabels_nil, List.nil_append, toDottedGo_zero]
    simp
  | cons d ds =>
    rw [toDottedGo_encode (d :: ds) (fun x hx => hall x (by simp [hx])) c hc.1]

/-- C1: for every dotted string joined from components that are 1-63 bytes
each (dot-free, valid UTF-8, as components of a dotted Rust string are)
whose total wire length is at most 255, `from_dotted` succeeds and
`to_dotted` returns the original string; the empty string maps to the root
domain, whose `to_dotted` is the empty string. -/
theorem claim1_dotted_roundtrip :
    (∀ comps : List (List Nat), comps ≠ [] →
      (∀ c ∈ comps, c ≠ [] ∧ c.length ≤ MAX_LABEL_LEN ∧ dotByte ∉ c ∧
        utf8Valid c = true) →
      (comps.map (fun c => 1 + c.length)).sum + 1 ≤ MAX_DOMAIN_LEN →
      ∃ d, DomainName.from_dotted (List.intercalate [dotByte] comps) = some d ∧
        d.to_dotted = List.intercalate [dotByte] comps) ∧
    (∃ d, DomainName.from_dotted [] = some d ∧ d.is_root = true ∧
      d.to_dotted = []) := by
  constructor
  · intro comps hne hall hbound
    have hs_ne : List.intercalate [dotByte] comps ≠ [] := by
      obtain ⟨c, cs, rfl⟩ := List.exists_cons_of_ne_nil hne
      exact intercalate_dot_ne_nil _ _ _ (hall c (by simp)).1
    have henc : DomainName.fromDottedGo comps [] =
        some (encodeLabels comps) := by
      have h := fromDottedGo_eq_some comps []
        (fun x hx => ⟨(hall x hx).1, (hall x hx).2.1⟩)
        (by rw [List.length_nil, encodeLabels_length]; omega)
      simpa using h
    refine ⟨canonDomainName (encodeLabels comps), ?_, ?_⟩
    · unfold DomainName.from_dotted
      rw [if_neg (by simpa [List.isEmpty_iff] using hs_ne),
        trimEndDots_intercalate _
          (fun x hx => ⟨(hall x hx).1, (hall x hx).2.2.1⟩),
        List.splitOn_intercalate _ dotByte
          (fun l hl => (hall l hl).2.2.1) hne,
        henc]
      rfl
    · have hwire : (canonDomainName (encodeLabels comps)).to_dotted =
          DomainName.toDottedGo (encodeLabels comps ++ [0]) [] := by
        show DomainName.toDottedGo
          ((canonDomainName (encodeLabels comps)).as_wire_bytes) [] = _
        rw [canon_as_wire_bytes]
      obtain ⟨c, cs, rfl⟩ := List.exists_cons_of_ne_nil hne
      rw [hwire, toDottedGo_encode_head c cs
        (fun x hx => ⟨(hall x hx).1, (hall x hx).2.2.2⟩)]
  · refine ⟨DomainName.defaultDomainName, by decide, by decide, ?_⟩
    show DomainName.toDottedGo ((List.replicate MAX_DOMAIN_LEN 0).take 1) [] = []
    rw [show (List.replicate MAX_DOMAIN_LEN 0).take 1 = [0] by decide]
    exact toDottedGo_zero [] []

/-- Witness for C1 at the dotted string "a.b" (components `[97]`, `[98]`). -/
theorem claim1_dotted_roundtrip_witness :
    ∃ d, DomainName.from_dotted
        (List.intercalate [dotByte] [[97], [98]]) = some d ∧
      d.to_dotted = List.intercalate [dotByte] [[97], [98]] :=
  claim1_dotted_roundtrip.1 [[97], [98]] (by decide) (by decide) (by decide)

lemma label_canon (b : List Nat) (l : Label)
    (h : Label.new b = some l ∨ Label.from_str b = some l ∨
      l = Label.defaultLabel) :
    ∃ x, l = canonLabel x := by
  have hn : Label.new b = some l ∨ l = Label.defaultLabel := by
    rcases h with h | h | h
    · exact Or.inl h
    · exact Or.inl h
    · exact Or.inr h
  rcases hn with h | rfl
  · unfold Label.new at h
    split at h
    · exact absurd h (by simp)
    · cases h
      exact ⟨b, rfl⟩
  · exact ⟨[], by decide⟩

lemma canonLabel_as_bytes (b : List Nat) : (canonLabel b).as_bytes = b :=
  List.take_left' rfl

/-- C10 (implicit): the constructors zero the unused tail of the fixed
backing arrays, so derived structural equality coincides with equality of
`as_bytes` for labels and of `as_wire_bytes` for domain names. -/
theorem claim10_canonical_equality :
    (∀ (b1 b2 : List Nat) (l1 l2 : Label),
      (Label.new b1 = some l1 ∨ Label.from_str b1 = some l1 ∨
        l1 = Label.defaultLabel) →
      (Label.new b2 = some l2 ∨ Label.from_str b2 = some l2 ∨
        l2 = Label.defaultLabel) →
      (l1 = l2 ↔ l1.as_bytes = l2.as_bytes)) ∧
    (∀ (s1 s2 : List Nat) (d1 d2 : DomainName),
      (DomainName.from_dotted s1 = some d1 ∨
        d1 = DomainName.defaultDomainName) →
      (DomainName.from_dotted s2 = some d2 ∨
        d2 = DomainName.defaultDomainName) →
      (d1 = d2 ↔ d1.as_wire_bytes = d2.as_wire_bytes)) := by
  constructor
  · intro b1 b2 l1 l2 h1 h2
    obtain ⟨x1, rfl⟩ := label_canon b1 l1 h1
    obtain ⟨x2, rfl⟩ := label_canon b2 l2 h2
    constructor
    · intro h
      rw [h]
    · intro h
      rw [canonLabel_as_bytes, canonLabel_as_bytes] at h
      rw [h]
  · intro s1 s2 d1 d2 h1 h2
    have hc1 : ∃ o, d1 = canonDomainName o := by
      rcases h1 with h | rfl
      · obtain ⟨o, ho, -, -⟩ := from_dotted_canon s1 d1 h
        exact ⟨o, ho⟩
      · exact ⟨[], defaultDomainName_eq_canon⟩
    have hc2 : ∃ o, d2 = canonDomainName o := by
      rcases h2 with h | rfl
      · obtain ⟨o, ho, -, -⟩ := from_dotted_canon s2 d2 h
        exact ⟨o, ho⟩
      · exact ⟨[], defaultDomainName_eq_canon⟩
    obtain ⟨o1, rfl⟩ := hc1
    obtain ⟨o2, rfl⟩ := hc2
    constructor
    · intro h
      rw [h]
    · intro h
      rw [canon_as_wire_bytes, canon_as_wire_bytes] at h
      rw [List.append_cancel_right h]

/-- Witness for C10: labels built from "a", and the default domain name. -/
theorem claim10_canonical_equality_witness :
    (({ len := 1, data := 97 :: List.replicate 62 0 } : Label) =
        { len := 1, data := 97 :: List.replicate 62 0 } ↔
      Label.as_bytes { len := 1, data := 97 :: List.replicate 62 0 } =
        Label.as_bytes { len := 1, data := 97 :: List.replicate 62 0 }) ∧
    (DomainName.defaultDomainName = DomainName.defaultDomainName ↔
      DomainName.defaultDomainName.as_wire_bytes =
        DomainName.defaultDomainName.as_wire_bytes) :=
  ⟨claim10_canonical_equality.1 [97] [97] _ _ (Or.inl (by decide))
      (Or.inl (by decide)),
    claim10_canonical_equality.2 [] [] _ _ (Or.inr rfl) (Or.inr rfl)⟩
